import Mathlib

/-!
Verification of the RAG chatbot core: chunker, classifier, evaluator,
vector index and retriever, embedded over `List Char` and `ℚ`.
-/

namespace Rag

/-- Python whitespace: the ASCII characters removed by str.strip, matched by
the regex whitespace class, and used by str.split with no argument. -/
def pyWs (c : Char) : Bool :=
  c == ' ' || c == '\t' || c == '\n' || c == '\r' || c == Char.ofNat 11 || c == Char.ofNat 12

/-- Negation of `pyWs`, used for word scanning. -/
def notWs (c : Char) : Bool := !(pyWs c)

/-- Python str.strip: drop leading and trailing whitespace. -/
def pyStrip (s : List Char) : List Char :=
  ((s.dropWhile pyWs).reverse.dropWhile pyWs).reverse

/-- Python str.lower, ASCII case folding. -/
def pyLower (s : List Char) : List Char := s.map Char.toLower

/-- Python substring test: `needle in hay`. -/
def containsSub (hay needle : List Char) : Bool :=
  (List.range (hay.length + 1)).any (fun i => needle.isPrefixOf (hay.drop i))

/-- Scanner for Python str.split with no separator: `acc` is the current
word, reversed; whitespace ends a word, and empty pieces are dropped. -/
def splitWsGo : List Char → List Char → List (List Char)
  | acc, [] => if acc = [] then [] else [acc.reverse]
  | acc, c :: rest =>
    if pyWs c then
      if acc = [] then splitWsGo [] rest
      else acc.reverse :: splitWsGo [] rest
    else splitWsGo (c :: acc) rest

/-- Python str.split with no separator: split on whitespace runs, dropping
empty pieces. -/
def pySplitWs (s : List Char) : List (List Char) := splitWsGo [] s

/-- Scanner for Python str.split on the two-character paragraph separator of
two newlines: split at each leftmost non-overlapping occurrence, keeping
empty pieces. `acc` is the current piece, reversed. -/
def splitParaGo : List Char → List Char → List (List Char)
  | acc, [] => [acc.reverse]
  | acc, [c] => [(c :: acc).reverse]
  | acc, c1 :: c2 :: rest =>
    if c1 = '\n' ∧ c2 = '\n' then acc.reverse :: splitParaGo [] rest
    else splitParaGo (c1 :: acc) (c2 :: rest)

/-- Python text.split on a blank line, as the chunker uses to find
paragraphs. -/
def pySplitPara (s : List Char) : List (List Char) := splitParaGo [] s

/-- Sentence-ending punctuation used by the chunker's splitting regex. -/
def isPunctSE (c : Char) : Bool := c == '.' || c == '!' || c == '?'

/-- Scanner for the regex split used by the chunker at sentence level: split
at every maximal whitespace run preceded by a sentence-ending punctuation
character. `inRun` records whether the scanner is inside the whitespace run
of a split, `prev` is the previously scanned character and `acc` the current
piece, reversed. At the start of the string there is no preceding character,
so the caller seeds `prev` with a non-punctuation character. -/
def sentGo : Bool → Char → List Char → List Char → List (List Char)
  | _, _, acc, [] => [acc.reverse]
  | true, _, acc, c :: rest =>
    if pyWs c then sentGo true c acc rest
    else sentGo false c (c :: acc) rest
  | false, prev, acc, c :: rest =>
    if isPunctSE prev && pyWs c then acc.reverse :: sentGo true c [] rest
    else sentGo false c (c :: acc) rest

/-- The chunker's sentence split: re.split on whitespace runs that follow
sentence-ending punctuation. -/
def sentSplit (s : List Char) : List (List Char) := sentGo false ' ' [] s

/-- Python slice s[-k:] as used by the chunker; s[-0:] is the whole string. -/
def pyTakeLast (s : List Char) (k : Nat) : List Char :=
  if k = 0 then s else s.drop (s.length - k)

/-- The overlap text kept when a chunk is flushed: the last `olap` characters
of the buffer when the buffer is longer than `olap`, else the whole buffer. -/
def overlapOf (cur : List Char) (olap : Nat) : List Char :=
  if olap < cur.length then pyTakeLast cur olap else cur

/-- Loop body of `_split_on_words`: accumulate words into a buffer, flushing
with overlap seeding when the next word would overflow `size`. -/
def wordLoop (size olap : Nat) :
    List (List Char) → List Char → List (List Char) → List (List Char)
  | chunks, cur, [] => if pyStrip cur = [] then chunks else chunks ++ [pyStrip cur]
  | chunks, cur, w :: rest =>
    if size < cur.length + w.length + 1 then
      if cur = [] then
        wordLoop size olap chunks w rest
      else
        wordLoop size olap (chunks ++ [pyStrip cur]) (overlapOf cur olap ++ ' ' :: w) rest
    else
      wordLoop size olap chunks (pyStrip (cur ++ ' ' :: w)) rest

/-- The chunker's `_split_on_words`: last-resort split on word boundaries. -/
def splitOnWords (text : List Char) (size olap : Nat) : List (List Char) :=
  wordLoop size olap [] [] (pySplitWs text)

/-- Loop body of `_split_on_sentences`: accumulate sentences into a buffer,
flushing with overlap seeding; a sentence that alone overflows an empty
buffer is split on words. -/
def sentLoop (size olap : Nat) :
    List (List Char) → List Char → List (List Char) → List (List Char)
  | chunks, cur, [] => if pyStrip cur = [] then chunks else chunks ++ [pyStrip cur]
  | chunks, cur, s :: rest =>
    if size < cur.length + s.length + 1 then
      if cur = [] then
        let wc := splitOnWords s size olap
        sentLoop size olap (chunks ++ wc.dropLast) (wc.getLastD []) rest
      else
        sentLoop size olap (chunks ++ [pyStrip cur]) (overlapOf cur olap ++ ' ' :: s) rest
    else
      sentLoop size olap chunks (pyStrip (cur ++ ' ' :: s)) rest

/-- The chunker's `_split_on_sentences`: split on sentence boundaries when a
paragraph is too long. -/
def splitOnSentences (text : List Char) (size olap : Nat) : List (List Char) :=
  sentLoop size olap [] [] (sentSplit text)

/-- Loop body of `chunk_text`: accumulate stripped paragraphs, skipping
whitespace-only ones, flushing with overlap seeding; a paragraph that alone
overflows an empty buffer is split on sentences. -/
def paraLoop (size olap : Nat) :
    List (List Char) → List Char → List (List Char) → List (List Char)
  | chunks, cur, [] => if pyStrip cur = [] then chunks else chunks ++ [pyStrip cur]
  | chunks, cur, p :: rest =>
    let para := pyStrip p
    if para = [] then paraLoop size olap chunks cur rest
    else if size < cur.length + para.length + 2 then
      if cur = [] then
        let sc := splitOnSentences para size olap
        paraLoop size olap (chunks ++ sc.dropLast) (sc.getLastD []) rest
      else
        paraLoop size olap (chunks ++ [pyStrip cur]) (overlapOf cur olap ++ ' ' :: para) rest
    else
      paraLoop size olap chunks (pyStrip (cur ++ '\n' :: '\n' :: para)) rest

/-- The chunker's `chunk_text`: return the whole text when it fits in one
chunk, otherwise split recursively on paragraph breaks, sentences, words. -/
def chunkText (text : List Char) (size olap : Nat) : List (List Char) :=
  if text.length ≤ size then [text]
  else paraLoop size olap [] [] (pySplitPara text)

theorem length_dropWhile_le (p : Char → Bool) (s : List Char) :
    (s.dropWhile p).length ≤ s.length :=
  (s.dropWhile_sublist p).length_le

theorem pyStrip_length_le (s : List Char) : (pyStrip s).length ≤ s.length := by
  unfold pyStrip
  have h1 := length_dropWhile_le pyWs s
  have h2 := length_dropWhile_le pyWs (s.dropWhile pyWs).reverse
  simp only [List.length_reverse] at *
  omega

theorem overlapOf_length_le {olap : Nat} (cur : List Char) (h : 1 ≤ olap) :
    (overlapOf cur olap).length ≤ olap := by
  unfold overlapOf pyTakeLast
  split
  · rename_i hlt
    rw [if_neg (by omega)]
    simp only [List.length_drop]
    omega
  · omega

theorem paraLoop_le {size olap : Nat} (h1 : 1 ≤ olap) :
    ∀ (paras : List (List Char)) (chunks : List (List Char)) (cur : List Char),
    (∀ c ∈ chunks, c.length ≤ size) → cur.length ≤ size →
    (∀ p ∈ paras, (pyStrip p).length + olap + 1 ≤ size) →
    ∀ c ∈ paraLoop size olap chunks cur paras, c.length ≤ size := by
  intro paras
  induction paras with
  | nil =>
    intro chunks cur hc hcur _ c hmem
    simp only [paraLoop] at hmem
    split at hmem
    · exact hc c hmem
    · rcases List.mem_append.mp hmem with h | h
      · exact hc c h
      · simp only [List.mem_singleton] at h
        subst h
        exact le_trans (pyStrip_length_le cur) hcur
  | cons p rest ih =>
    intro chunks cur hc hcur hp c hmem
    have hphead : (pyStrip p).length + olap + 1 ≤ size := hp p (by simp)
    have hptail : ∀ q ∈ rest, (pyStrip q).length + olap + 1 ≤ size :=
      fun q hq => hp q (by simp [hq])
    simp only [paraLoop] at hmem
    split at hmem
    · exact ih chunks cur hc hcur hptail c hmem
    · rename_i hne
      split at hmem
      · rename_i hover
        split at hmem
        · rename_i hcurnil
          exfalso
          rw [hcurnil] at hover
          simp only [List.length_nil] at hover
          omega
        · refine ih _ _ ?_ ?_ hptail c hmem
          · intro d hd
            rcases List.mem_append.mp hd with h | h
            · exact hc d h
            · simp only [List.mem_singleton] at h
              subst h
              exact le_trans (pyStrip_length_le cur) hcur
          · simp only [List.length_append, List.length_cons]
            have := overlapOf_length_le cur h1
            omega
      · rename_i hover
        refine ih _ _ hc ?_ hptail c hmem
        calc (pyStrip (cur ++ '\n' :: '\n' :: pyStrip p)).length
            ≤ (cur ++ '\n' :: '\n' :: pyStrip p).length := pyStrip_length_le _
          _ ≤ size := by simp only [List.length_append, List.length_cons]; omega

/-- Claim C2 (amended): the chunk-size invariant fails in general because a
flushed buffer is reseeded with overlap text plus the whole next unit; it
does hold whenever the overlap is at least one character and every stripped
paragraph fits in the chunk size together with the overlap seed and its
joining space. -/
theorem claim_C2_amended (text : List Char) (size olap : Nat) (h1 : 1 ≤ olap)
    (h2 : ∀ p ∈ pySplitPara text, (pyStrip p).length + olap + 1 ≤ size) :
    ∀ c ∈ chunkText text size olap, c.length ≤ size := by
  intro c hmem
  unfold chunkText at hmem
  split at hmem
  · rename_i hfit
    simp only [List.mem_singleton] at hmem
    subst hmem
    exact hfit
  · exact paraLoop_le h1 _ [] [] (by simp) (by simp) h2 c hmem

/-- Witness for claim C2 (amended) at a concrete two-paragraph text that is
longer than the chunk size. -/
theorem claim_C2_witness :
    ((chunkText "abcd efgh\n\nijkl mnop".toList 12 1).getD 1 []).length ≤ 12 :=
  claim_C2_amended "abcd efgh\n\nijkl mnop".toList 12 1 (by decide) (by decide) _
    (by decide)

/-- Counterexample to claim C2 as stated: with size 10 and overlap 5, the
two-paragraph text below yields a second chunk of 14 characters, which
exceeds the size and is not a single oversized word (it contains a space). -/
theorem claim_C2_counterexample :
    chunkText "aaaaaaaa\n\nbbbbbbbb".toList 10 5
        = ["aaaaaaaa".toList, "aaaaa bbbbbbbb".toList]
      ∧ 10 < "aaaaa bbbbbbbb".toList.length ∧ ' ' ∈ "aaaaa bbbbbbbb".toList := by
  decide

/-- Claim C7: a text no longer than the chunk size is returned whole as the
single chunk. -/
theorem claim_C7 (text : List Char) (size olap : Nat) (h : text.length ≤ size) :
    chunkText text size olap = [text] := by
  unfold chunkText
  rw [if_pos h]

/-- Witness for claim C7 at a concrete short text. -/
theorem claim_C7_witness : chunkText "hello".toList 10 3 = ["hello".toList] :=
  claim_C7 "hello".toList 10 3 (by decide)

/-- Counterexample to claim C6 as stated: on empty input `chunk_text` returns
a one-element sequence containing the empty string, not an empty sequence. -/
theorem claim_C6_counterexample :
    chunkText [] 500 100 = [[]] ∧ ([[]] : List (List Char)) ≠ [] := by
  decide

/-- A string holds ink when it has at least one non-whitespace character. -/
def hasInk (s : List Char) : Prop := ∃ c ∈ s, pyWs c = false

theorem hasInk_append_left {s t : List Char} (h : hasInk s) : hasInk (s ++ t) := by
  obtain ⟨c, hc, hw⟩ := h
  exact ⟨c, List.mem_append_left _ hc, hw⟩

theorem hasInk_append_right {s t : List Char} (h : hasInk t) : hasInk (s ++ t) := by
  obtain ⟨c, hc, hw⟩ := h
  exact ⟨c, List.mem_append_right _ hc, hw⟩

theorem hasInk_reverse {s : List Char} (h : hasInk s) : hasInk s.reverse := by
  obtain ⟨c, hc, hw⟩ := h
  exact ⟨c, List.mem_reverse.mpr hc, hw⟩

theorem dropWhile_head_false {p : Char → Bool} :
    ∀ {s : List Char} {c : Char} {r : List Char}, s.dropWhile p = c :: r → p c = false := by
  intro s
  induction s with
  | nil => intro c r h; simp [List.dropWhile] at h
  | cons a t ih =>
    intro c r h
    by_cases hp : p a
    · rw [List.dropWhile_cons_of_pos hp] at h; exact ih h
    · rw [List.dropWhile_cons_of_neg hp] at h
      cases h; simpa using hp

theorem dropWhile_head?_false {p : Char → Bool} {s : List Char} {c : Char}
    (h : (s.dropWhile p).head? = some c) : p c = false := by
  cases hs : s.dropWhile p with
  | nil => rw [hs] at h; simp at h
  | cons a r =>
    rw [hs] at h
    simp only [List.head?_cons, Option.some.injEq] at h
    subst h
    exact dropWhile_head_false hs

theorem mem_dropWhile {p : Char → Bool} {s : List Char} {c : Char}
    (h : c ∈ s.dropWhile p) : c ∈ s :=
  (s.dropWhile_sublist p).mem h

theorem mem_pyStrip {s : List Char} {c : Char} (h : c ∈ pyStrip s) : c ∈ s := by
  unfold pyStrip at h
  rw [List.mem_reverse] at h
  have h2 := mem_dropWhile h
  rw [List.mem_reverse] at h2
  exact mem_dropWhile h2

theorem pyStrip_eq_nil_iff {s : List Char} :
    pyStrip s = [] ↔ ∀ c ∈ s, pyWs c = true := by
  unfold pyStrip
  rw [List.reverse_eq_nil_iff, List.dropWhile_eq_nil_iff]
  constructor
  · intro h c hc
    by_cases hw : pyWs c = true
    · exact hw
    · exfalso
      have hs := List.takeWhile_append_dropWhile (p := pyWs) (l := s)
      rcases List.mem_append.mp (by rw [hs]; exact hc) with h1 | h1
      · exact hw (List.mem_takeWhile_imp h1)
      · exact hw (h c (List.mem_reverse.mpr h1))
  · intro h c hc
    exact h c (mem_dropWhile (List.mem_reverse.mp hc))

theorem pyStrip_ne_nil_iff {s : List Char} : pyStrip s ≠ [] ↔ hasInk s := by
  rw [Ne, pyStrip_eq_nil_iff, hasInk]
  constructor
  · intro h
    by_contra hno
    push_neg at hno
    exact h fun c hc => by
      by_contra hf
      exact absurd (by simpa using hf : pyWs c = false) (by simpa using hno c hc)
  · rintro ⟨c, hc, hw⟩ hall
    rw [hall c hc] at hw
    cases hw

theorem pyStrip_head?_false {s : List Char} {c : Char}
    (h : (pyStrip s).head? = some c) : pyWs c = false := by
  unfold pyStrip at h
  rw [List.head?_reverse] at h
  have hne : (List.dropWhile pyWs (List.dropWhile pyWs s).reverse) ≠ [] := by
    intro hnil
    rw [hnil] at h
    simp at h
  obtain ⟨pre, hpre⟩ := (List.dropWhile_suffix
    (l := (List.dropWhile pyWs s).reverse) (p := pyWs))
  have h2 : (pre ++ List.dropWhile pyWs (List.dropWhile pyWs s).reverse).getLast?
      = some c := by
    rw [List.getLast?_append_of_ne_nil pre hne]
    exact h
  rw [hpre, List.getLast?_reverse] at h2
  exact dropWhile_head?_false h2

theorem pyStrip_getLast?_false {s : List Char} {c : Char}
    (h : (pyStrip s).getLast? = some c) : pyWs c = false := by
  unfold pyStrip at h
  rw [List.getLast?_reverse] at h
  exact dropWhile_head?_false h

theorem hasInk_pyStrip {s : List Char} (h : hasInk s) : hasInk (pyStrip s) := by
  have hne : pyStrip s ≠ [] := pyStrip_ne_nil_iff.mpr h
  cases hs : pyStrip s with
  | nil => exact absurd hs hne
  | cons a r =>
    exact ⟨a, by simp, pyStrip_head?_false (by rw [hs]; rfl)⟩

theorem splitWsGo_words {acc : List Char} {s : List Char}
    (hacc : ∀ c ∈ acc, pyWs c = false) :
    ∀ w ∈ splitWsGo acc s, w ≠ [] ∧ ∀ c ∈ w, pyWs c = false := by
  induction s generalizing acc with
  | nil =>
    intro w hw
    simp only [splitWsGo] at hw
    split at hw
    · simp at hw
    · rename_i hne
      simp only [List.mem_singleton] at hw
      subst hw
      exact ⟨by simpa using hne, fun c hc => hacc c (List.mem_reverse.mp hc)⟩
  | cons a rest ih =>
    intro w hw
    simp only [splitWsGo] at hw
    split at hw
    · split at hw
      · exact ih (by simp) w hw
      · rename_i hne
        rcases List.mem_cons.mp hw with h | h
        · subst h
          exact ⟨by simpa using hne, fun c hc => hacc c (List.mem_reverse.mp hc)⟩
        · exact ih (by simp) w h
    · rename_i hws
      refine ih ?_ w hw
      intro c hc
      rcases List.mem_cons.mp hc with h | h
      · subst h; simpa using hws
      · exact hacc c h

theorem splitWsGo_ne_nil_of_acc {acc s : List Char} (h : acc ≠ []) :
    splitWsGo acc s ≠ [] := by
  induction s generalizing acc with
  | nil => simp [splitWsGo, h]
  | cons a rest ih =>
    simp only [splitWsGo]
    by_cases hws : pyWs a = true
    · rw [if_pos hws, if_neg h]
      simp
    · rw [if_neg hws]
      exact ih (by simp)

theorem splitWsGo_ne_nil_of_ink {acc s : List Char} (h : hasInk s) :
    splitWsGo acc s ≠ [] := by
  induction s generalizing acc with
  | nil => obtain ⟨c, hc, _⟩ := h; simp at hc
  | cons a rest ih =>
    simp only [splitWsGo]
    split
    · rename_i hws
      have hrest : hasInk rest := by
        obtain ⟨c, hc, hw⟩ := h
        rcases List.mem_cons.mp hc with rfl | hc
        · rw [hws] at hw; cases hw
        · exact ⟨c, hc, hw⟩
      split
      · exact ih hrest
      · simp
    · exact splitWsGo_ne_nil_of_acc (by simp)

theorem pySplitWs_words {s : List Char} :
    ∀ w ∈ pySplitWs s, w ≠ [] ∧ ∀ c ∈ w, pyWs c = false :=
  splitWsGo_words (by simp)

theorem pySplitWs_ne_nil {s : List Char} (h : hasInk s) : pySplitWs s ≠ [] :=
  splitWsGo_ne_nil_of_ink h

theorem sentGo_ne_nil : ∀ (s : List Char) (b : Bool) (prev : Char) (acc : List Char),
    sentGo b prev acc s ≠ [] := by
  intro s
  induction s with
  | nil => intro b prev acc; cases b <;> simp [sentGo]
  | cons c rest ih =>
    intro b prev acc
    cases b with
    | true =>
      simp only [sentGo]
      split
      · exact ih true c acc
      · exact ih false c (c :: acc)
    | false =>
      simp only [sentGo]
      split
      · simp
      · exact ih false c (c :: acc)

theorem sentGo_all_ink :
    ∀ (s : List Char) (b : Bool) (prev : Char) (acc : List Char),
    (∀ c, s.getLast? = some c → pyWs c = false) →
    (acc = [] → s ≠ []) →
    (b = false → acc = [] → ∀ c, s.head? = some c → pyWs c = false) →
    (acc ≠ [] → hasInk acc) →
    ∀ p ∈ sentGo b prev acc s, hasInk p := by
  intro s
  induction s with
  | nil =>
    intro b prev acc _ hne _ hink p hp
    have hacc : acc ≠ [] := fun h => (hne h) rfl
    have : p = acc.reverse := by
      cases b <;> simpa [sentGo] using hp
    subst this
    exact hasInk_reverse (hink hacc)
  | cons c rest ih =>
    intro b prev acc hlast hne hhead hink p hp
    have hlast' : ∀ d, rest.getLast? = some d → pyWs d = false := by
      intro d hd
      cases rest with
      | nil => simp at hd
      | cons r1 r2 =>
        exact hlast d (by rw [List.getLast?_cons_cons]; exact hd)
    have hlastc : rest = [] → pyWs c = false := by
      intro hr
      subst hr
      exact hlast c rfl
    cases b with
    | true =>
      simp only [sentGo] at hp
      split at hp
      · rename_i hws
        refine ih true c acc hlast' ?_ (by intro h; cases h) hink p hp
        intro _
        intro hr
        subst hr
        rw [hlastc rfl] at hws
        cases hws
      · rename_i hws
        refine ih false c (c :: acc) hlast' (by intro h; cases h) (by intro _ h; cases h)
          ?_ p hp
        intro _
        rcases List.eq_nil_or_concat acc with h | _
        · subst h
          exact ⟨c, by simp, by simpa using hws⟩
        · obtain ⟨d, hd, hw⟩ := hink (by rintro rfl; simp_all)
          exact ⟨d, by simp [hd], hw⟩
    | false =>
      simp only [sentGo] at hp
      split at hp
      · rename_i hcond
        have hwc : pyWs c = true := by
          rcases Bool.and_eq_true _ _ |>.mp hcond with ⟨_, h2⟩
          exact h2
        have hacc : acc ≠ [] := by
          intro h
          have := hhead rfl h c rfl
          rw [this] at hwc
          cases hwc
        rcases List.mem_cons.mp hp with h | h
        · subst h
          exact hasInk_reverse (hink hacc)
        · refine ih true c [] hlast' ?_ (by intro h'; cases h') (by intro h'; simp at h')
            p h
          intro _
          intro hr
          subst hr
          rw [hlastc rfl] at hwc
          cases hwc
      · rename_i hcond
        refine ih false c (c :: acc) hlast' (by intro h'; cases h') (by intro _ h'; cases h')
          ?_ p hp
        intro _
        rcases List.eq_nil_or_concat acc with h | _
        · subst h
          have := hhead rfl rfl c rfl
          exact ⟨c, by simp, this⟩
        · obtain ⟨d, hd, hw⟩ := hink (by rintro rfl; simp_all)
          exact ⟨d, by simp [hd], hw⟩

/-- All pieces of the sentence split of a stripped, inked text contain ink. -/
theorem sentSplit_all_ink {s : List Char}
    (hhead : ∀ c, s.head? = some c → pyWs c = false)
    (hlast : ∀ c, s.getLast? = some c → pyWs c = false)
    (hne : s ≠ []) :
    ∀ p ∈ sentSplit s, hasInk p := by
  refine sentGo_all_ink s false ' ' [] hlast (fun _ => hne) (fun _ _ => hhead) ?_
  intro h
  cases h rfl

theorem sentSplit_ne_nil {s : List Char} : sentSplit s ≠ [] :=
  sentGo_ne_nil s false ' ' []

theorem getLastD_mem {α : Type} : ∀ (l : List α) (d : α), l ≠ [] → l.getLastD d ∈ l := by
  intro l
  induction l with
  | nil => intro d h; cases h rfl
  | cons a t ih =>
    intro d _
    rw [List.getLastD_cons]
    cases t with
    | nil => simp [List.getLastD]
    | cons b r => exact List.mem_cons_of_mem a (ih a (by simp))

theorem hasInk_of_word {w : List Char} (hne : w ≠ [])
    (hall : ∀ c ∈ w, pyWs c = false) : hasInk w := by
  cases w with
  | nil => cases hne rfl
  | cons c r => exact ⟨c, by simp, hall c (by simp)⟩

theorem wordLoop_all_ink {size olap : Nat} :
    ∀ (words chunks : List (List Char)) (cur : List Char),
    (∀ w ∈ words, w ≠ [] ∧ ∀ c ∈ w, pyWs c = false) →
    (∀ ch ∈ chunks, hasInk ch) → (cur = [] ∨ hasInk cur) →
    ∀ ch ∈ wordLoop size olap chunks cur words, hasInk ch := by
  intro words
  induction words with
  | nil =>
    intro chunks cur _ hch hcur ch hmem
    simp only [wordLoop] at hmem
    split at hmem
    · exact hch ch hmem
    · rename_i hne
      rcases List.mem_append.mp hmem with h | h
      · exact hch ch h
      · simp only [List.mem_singleton] at h
        subst h
        rcases hcur with h | h
        · rw [h] at hne; simp [pyStrip] at hne
        · exact hasInk_pyStrip h
  | cons w rest ih =>
    intro chunks cur hwords hch hcur ch hmem
    obtain ⟨hwne, hwall⟩ := hwords w (by simp)
    have hwink : hasInk w := hasInk_of_word hwne hwall
    have hrest : ∀ v ∈ rest, v ≠ [] ∧ ∀ c ∈ v, pyWs c = false :=
      fun v hv => hwords v (by simp [hv])
    simp only [wordLoop] at hmem
    split at hmem
    · split at hmem
      · exact ih chunks w hrest hch (Or.inr hwink) ch hmem
      · rename_i hcurne
        have hink : hasInk cur := hcur.resolve_left hcurne
        refine ih _ _ hrest ?_ (Or.inr (hasInk_append_right ⟨w.headD ' ', ?_, ?_⟩))
          ch hmem
        · intro d hd
          rcases List.mem_append.mp hd with h | h
          · exact hch d h
          · simp only [List.mem_singleton] at h
            subst h
            exact hasInk_pyStrip hink
        · cases w with
          | nil => cases hwne rfl
          | cons a r => simp
        · cases w with
          | nil => cases hwne rfl
          | cons a r => exact hwall a (by simp)
    · refine ih chunks _ hrest hch (Or.inr (hasInk_pyStrip (hasInk_append_right ?_)))
        ch hmem
      obtain ⟨c, hc, hw⟩ := hwink
      exact ⟨c, by simp [hc], hw⟩

theorem wordLoop_ne_nil {size olap : Nat} :
    ∀ (words chunks : List (List Char)) (cur : List Char),
    (∀ w ∈ words, w ≠ [] ∧ ∀ c ∈ w, pyWs c = false) →
    (chunks ≠ [] ∨ hasInk cur ∨ words ≠ []) →
    wordLoop size olap chunks cur words ≠ [] := by
  intro words
  induction words with
  | nil =>
    intro chunks cur _ hdisj
    simp only [wordLoop]
    split
    · rename_i hstrip
      rcases hdisj with h | h | h
      · exact h
      · exact absurd hstrip (pyStrip_ne_nil_iff.mpr h)
      · cases h rfl
    · simp
  | cons w rest ih =>
    intro chunks cur hwords _
    obtain ⟨hwne, hwall⟩ := hwords w (by simp)
    have hwink : hasInk w := hasInk_of_word hwne hwall
    have hrest : ∀ v ∈ rest, v ≠ [] ∧ ∀ c ∈ v, pyWs c = false :=
      fun v hv => hwords v (by simp [hv])
    simp only [wordLoop]
    split
    · split
      · exact ih chunks w hrest (Or.inr (Or.inl hwink))
      · exact ih _ _ hrest (Or.inl (by simp))
    · refine ih chunks _ hrest (Or.inr (Or.inl (hasInk_pyStrip (hasInk_append_right ?_))))
      obtain ⟨c, hc, hw⟩ := hwink
      exact ⟨c, by simp [hc], hw⟩

theorem splitOnWords_ne_nil (text : List Char) (size olap : Nat) (h : hasInk text) :
    splitOnWords text size olap ≠ [] := by
  unfold splitOnWords
  refine wordLoop_ne_nil _ [] [] (fun w hw => pySplitWs_words w hw)
    (Or.inr (Or.inr (pySplitWs_ne_nil h)))

theorem splitOnWords_all_ink (text : List Char) (size olap : Nat) :
    ∀ ch ∈ splitOnWords text size olap, hasInk ch := by
  unfold splitOnWords
  exact wordLoop_all_ink _ [] [] (fun w hw => pySplitWs_words w hw) (by simp) (Or.inl rfl)

theorem sentLoop_all_ink {size olap : Nat} :
    ∀ (sentences chunks : List (List Char)) (cur : List Char),
    (∀ s ∈ sentences, hasInk s) →
    (∀ ch ∈ chunks, hasInk ch) → (cur = [] ∨ hasInk cur) →
    ∀ ch ∈ sentLoop size olap chunks cur sentences, hasInk ch := by
  intro sentences
  induction sentences with
  | nil =>
    intro chunks cur _ hch hcur ch hmem
    simp only [sentLoop] at hmem
    split at hmem
    · exact hch ch hmem
    · rename_i hne
      rcases List.mem_append.mp hmem with h | h
      · exact hch ch h
      · simp only [List.mem_singleton] at h
        subst h
        rcases hcur with h | h
        · rw [h] at hne; simp [pyStrip] at hne
        · exact hasInk_pyStrip h
  | cons s rest ih =>
    intro chunks cur hsent hch hcur ch hmem
    have hsink : hasInk s := hsent s (by simp)
    have hrest : ∀ v ∈ rest, hasInk v := fun v hv => hsent v (by simp [hv])
    simp only [sentLoop] at hmem
    split at hmem
    · split at hmem
      · refine ih _ _ hrest ?_ ?_ ch hmem
        · intro d hd
          rcases List.mem_append.mp hd with h | h
          · exact hch d h
          · exact splitOnWords_all_ink s size olap d
              (List.Sublist.mem h (List.dropLast_sublist _))
        · refine Or.inr (splitOnWords_all_ink s size olap _ ?_)
          exact getLastD_mem _ [] (splitOnWords_ne_nil s size olap hsink)
      · rename_i hcurne
        have hink : hasInk cur := hcur.resolve_left hcurne
        refine ih _ _ hrest ?_ (Or.inr (hasInk_append_right ?_)) ch hmem
        · intro d hd
          rcases List.mem_append.mp hd with h | h
          · exact hch d h
          · simp only [List.mem_singleton] at h
            subst h
            exact hasInk_pyStrip hink
        · obtain ⟨c, hc, hw⟩ := hsink
          exact ⟨c, by simp [hc], hw⟩
    · refine ih chunks _ hrest hch (Or.inr (hasInk_pyStrip (hasInk_append_right ?_)))
        ch hmem
      obtain ⟨c, hc, hw⟩ := hsink
      exact ⟨c, by simp [hc], hw⟩

theorem sentLoop_ne_nil {size olap : Nat} :
    ∀ (sentences chunks : List (List Char)) (cur : List Char),
    (∀ s ∈ sentences, hasInk s) →
    (chunks ≠ [] ∨ hasInk cur ∨ sentences ≠ []) →
    sentLoop size olap chunks cur sentences ≠ [] := by
  intro sentences
  induction sentences with
  | nil =>
    intro chunks cur _ hdisj
    simp only [sentLoop]
    split
    · rename_i hstrip
      rcases hdisj with h | h | h
      · exact h
      · exact absurd hstrip (pyStrip_ne_nil_iff.mpr h)
      · cases h rfl
    · simp
  | cons s rest ih =>
    intro chunks cur hsent _
    have hsink : hasInk s := hsent s (by simp)
    have hrest : ∀ v ∈ rest, hasInk v := fun v hv => hsent v (by simp [hv])
    simp only [sentLoop]
    split
    · split
      · refine ih _ _ hrest (Or.inr (Or.inl (splitOnWords_all_ink s size olap _ ?_)))
        exact getLastD_mem _ [] (splitOnWords_ne_nil s size olap hsink)
      · exact ih _ _ hrest (Or.inl (by simp))
    · refine ih chunks _ hrest (Or.inr (Or.inl (hasInk_pyStrip (hasInk_append_right ?_))))
      obtain ⟨c, hc, hw⟩ := hsink
      exact ⟨c, by simp [hc], hw⟩

theorem splitOnSentences_ne_nil (text : List Char) (size olap : Nat)
    (hhead : ∀ c, text.head? = some c → pyWs c = false)
    (hlast : ∀ c, text.getLast? = some c → pyWs c = false)
    (hne : text ≠ []) :
    splitOnSentences text size olap ≠ [] := by
  unfold splitOnSentences
  exact sentLoop_ne_nil _ [] [] (sentSplit_all_ink hhead hlast hne)
    (Or.inr (Or.inr sentSplit_ne_nil))

theorem splitOnSentences_all_ink (text : List Char) (size olap : Nat)
    (hhead : ∀ c, text.head? = some c → pyWs c = false)
    (hlast : ∀ c, text.getLast? = some c → pyWs c = false)
    (hne : text ≠ []) :
    ∀ ch ∈ splitOnSentences text size olap, hasInk ch := by
  unfold splitOnSentences
  exact sentLoop_all_ink _ [] [] (sentSplit_all_ink hhead hlast hne) (by simp)
    (Or.inl rfl)

theorem paraLoop_ne_nil {size olap : Nat} :
    ∀ (paras chunks : List (List Char)) (cur : List Char),
    (chunks ≠ [] ∨ hasInk cur ∨ ∃ p ∈ paras, hasInk p) →
    paraLoop size olap chunks cur paras ≠ [] := by
  intro paras
  induction paras with
  | nil =>
    intro chunks cur hdisj
    simp only [paraLoop]
    split
    · rename_i hstrip
      rcases hdisj with h | h | h
      · exact h
      · exact absurd hstrip (pyStrip_ne_nil_iff.mpr h)
      · simp at h
    · simp
  | cons p rest ih =>
    intro chunks cur hdisj
    simp only [paraLoop]
    split
    · rename_i hskip
      refine ih chunks cur ?_
      rcases hdisj with h | h | h
      · exact Or.inl h
      · exact Or.inr (Or.inl h)
      · obtain ⟨q, hq, hqink⟩ := h
        rcases List.mem_cons.mp hq with rfl | hq
        · exact absurd hskip (pyStrip_ne_nil_iff.mpr hqink)
        · exact Or.inr (Or.inr ⟨q, hq, hqink⟩)
    · rename_i hskip
      split
      · split
        · refine ih _ _ (Or.inr (Or.inl ?_))
          refine splitOnSentences_all_ink (pyStrip p) size olap
            (fun c hc => pyStrip_head?_false hc)
            (fun c hc => pyStrip_getLast?_false hc) hskip _ ?_
          exact getLastD_mem _ []
            (splitOnSentences_ne_nil (pyStrip p) size olap
              (fun c hc => pyStrip_head?_false hc)
              (fun c hc => pyStrip_getLast?_false hc) hskip)
        · exact ih _ _ (Or.inl (by simp))
      · refine ih chunks _ (Or.inr (Or.inl (hasInk_pyStrip (hasInk_append_right ?_))))
        have hink : hasInk (pyStrip p) := by
          cases hp : pyStrip p with
          | nil => exact absurd hp hskip
          | cons a r => exact ⟨a, by simp, pyStrip_head?_false (by rw [hp]; rfl)⟩
        obtain ⟨c, hc, hw⟩ := hink
        exact ⟨c, by simp [hc], hw⟩

theorem paraLoop_all_ws {size olap : Nat} :
    ∀ (paras chunks : List (List Char)) (cur : List Char),
    (∀ p ∈ paras, pyStrip p = []) →
    paraLoop size olap chunks cur paras
      = if pyStrip cur = [] then chunks else chunks ++ [pyStrip cur] := by
  intro paras
  induction paras with
  | nil => intro chunks cur _; simp [paraLoop]
  | cons p rest ih =>
    intro chunks cur hall
    simp only [paraLoop]
    rw [if_pos (hall p (by simp))]
    exact ih chunks cur fun q hq => hall q (by simp [hq])

theorem splitParaGo_cover :
    ∀ (acc s : List Char) (c : Char), (c ∈ acc ∨ c ∈ s) → c ≠ '\n' →
    ∃ p ∈ splitParaGo acc s, c ∈ p := by
  intro acc s
  induction acc, s using splitParaGo.induct with
  | case1 acc =>
    intro c hc _
    rcases hc with h | h
    · exact ⟨acc.reverse, by simp [splitParaGo], List.mem_reverse.mpr h⟩
    · simp at h
  | case2 acc c1 =>
    intro c hc _
    refine ⟨(c1 :: acc).reverse, by simp [splitParaGo], List.mem_reverse.mpr ?_⟩
    rcases hc with h | h
    · exact List.mem_cons_of_mem c1 h
    · simp only [List.mem_singleton] at h
      subst h
      simp
  | case3 acc c1 c2 rest hsep ih =>
    intro c hc hcn
    obtain ⟨h1, h2⟩ := hsep
    rcases hc with h | h
    · refine ⟨acc.reverse, ?_, List.mem_reverse.mpr h⟩
      simp only [splitParaGo]
      rw [if_pos ⟨h1, h2⟩]
      simp
    · have hcr : c ∈ rest := by
        rcases List.mem_cons.mp h with rfl | h2m
        · exact absurd h1 hcn
        · rcases List.mem_cons.mp h2m with rfl | h3m
          · exact absurd h2 hcn
          · exact h3m
      obtain ⟨p, hp, hcp⟩ := ih c (Or.inr hcr) hcn
      refine ⟨p, ?_, hcp⟩
      simp only [splitParaGo]
      rw [if_pos ⟨h1, h2⟩]
      exact List.mem_cons_of_mem _ hp
  | case4 acc c1 c2 rest hsep ih =>
    intro c hc hcn
    have hmem : c ∈ c1 :: acc ∨ c ∈ c2 :: rest := by
      rcases hc with h | h
      · exact Or.inl (List.mem_cons_of_mem c1 h)
      · rcases List.mem_cons.mp h with rfl | hrem
        · exact Or.inl (by simp)
        · exact Or.inr hrem
    obtain ⟨p, hp, hcp⟩ := ih c hmem hcn
    refine ⟨p, ?_, hcp⟩
    simp only [splitParaGo]
    rw [if_neg hsep]
    exact hp

theorem splitParaGo_sound :
    ∀ (acc s : List Char), ∀ p ∈ splitParaGo acc s, ∀ c ∈ p, c ∈ acc ∨ c ∈ s := by
  intro acc s
  induction acc, s using splitParaGo.induct with
  | case1 acc =>
    intro p hp c hc
    simp only [splitParaGo, List.mem_singleton] at hp
    subst hp
    exact Or.inl (List.mem_reverse.mp hc)
  | case2 acc c1 =>
    intro p hp c hc
    simp only [splitParaGo, List.mem_singleton] at hp
    subst hp
    rcases List.mem_cons.mp (List.mem_reverse.mp hc) with rfl | h
    · exact Or.inr (by simp)
    · exact Or.inl h
  | case3 acc c1 c2 rest hsep ih =>
    intro p hp c hc
    obtain ⟨h1, h2⟩ := hsep
    simp only [splitParaGo] at hp
    rw [if_pos ⟨h1, h2⟩] at hp
    rcases List.mem_cons.mp hp with rfl | hrem
    · exact Or.inl (List.mem_reverse.mp hc)
    · rcases ih p hrem c hc with h | h
      · simp at h
      · exact Or.inr (by simp [h])
  | case4 acc c1 c2 rest hsep ih =>
    intro p hp c hc
    simp only [splitParaGo] at hp
    rw [if_neg hsep] at hp
    rcases ih p hp c hc with h | h
    · rcases List.mem_cons.mp h with rfl | hrem
      · exact Or.inr (by simp)
      · exact Or.inl hrem
    · exact Or.inr (List.mem_cons_of_mem c1 h)

/-- Claim C6 (amended): chunk_text is total; on input of length at most the
chunk size, the empty string included, it returns the input as the single
chunk, so empty input yields a one-element sequence holding the empty
string, not an empty sequence; on longer input it returns at least one
chunk unless every character of the input is whitespace, in which case it
returns the empty sequence. -/
theorem claim_C6_amended (text : List Char) (size olap : Nat) :
    chunkText [] size olap = [[]] ∧
    (chunkText text size olap = [] ↔ size < text.length ∧ ∀ c ∈ text, pyWs c = true) := by
  refine ⟨by simp [chunkText], ?_, ?_⟩
  · intro hres
    unfold chunkText at hres
    split at hres
    · simp at hres
    · rename_i hlen
      refine ⟨by omega, ?_⟩
      by_contra hno
      push_neg at hno
      obtain ⟨c, hc, hcw⟩ := hno
      have hcf : pyWs c = false := by
        cases hpw : pyWs c
        · rfl
        · exact absurd hpw hcw
      have hcn : c ≠ '\n' := by
        intro h
        subst h
        rw [show pyWs '\n' = true by decide] at hcf
        cases hcf
      obtain ⟨p, hp, hcp⟩ := splitParaGo_cover [] text c (Or.inr hc) hcn
      exact paraLoop_ne_nil _ [] [] (Or.inr (Or.inr ⟨p, hp, ⟨c, hcp, hcf⟩⟩)) hres
  · rintro ⟨hlen, hws⟩
    unfold chunkText
    rw [if_neg (by omega)]
    have hall : ∀ p ∈ pySplitPara text, pyStrip p = [] := by
      intro p hp
      rw [pyStrip_eq_nil_iff]
      intro c hc
      rcases splitParaGo_sound [] text p hp c hc with h | h
      · simp at h
      · exact hws c h
    rw [paraLoop_all_ws _ [] [] hall]
    simp [pyStrip]

/-- The apostrophe character, kept out of string literals. -/
def apos : Char := Char.ofNat 39

/-- Join two string fragments with an apostrophe between them. -/
def aposJoin (a b : String) : List Char := a.toList ++ apos :: b.toList

/-- Word characters for regex word boundaries. -/
def isWordChar (c : Char) : Bool := c.isAlphanum || c == '_'

/-- Does the literal `w` occur in `s` starting at index `i`. -/
def litAt (s : List Char) (i : Nat) (w : List Char) : Bool := w.isPrefixOf (s.drop i)

/-- Regex word boundary immediately before index `i` of `s`, for a pattern
alternative that starts with a word character. -/
def boundaryBefore (s : List Char) (i : Nat) : Bool :=
  i == 0 || !(isWordChar (s.getD (i - 1) ' '))

/-- Regex word boundary immediately after index `j` of `s` (exclusive), for a
pattern alternative that ends with a word character. -/
def boundaryAfter (s : List Char) (j : Nat) : Bool := !(isWordChar (s.getD j ' '))

/-- Match of a single-word greeting alternative at index `i` with word
boundaries on both sides. -/
def wordAt (s : List Char) (i : Nat) (w : List Char) : Bool :=
  litAt s i w && boundaryBefore s i && boundaryAfter s (i + w.length)

/-- Match of a two-word greeting alternative joined by one or more whitespace
characters, with word boundaries at the outer ends. The second word starts
with a non-whitespace character, so only the maximal whitespace run can
precede it. -/
def compoundAt (s : List Char) (i : Nat) (w1 w2 : List Char) : Bool :=
  litAt s i w1 && boundaryBefore s i &&
    (let j := i + w1.length
     let run := ((s.drop j).takeWhile pyWs).length
     decide (1 ≤ run) && litAt s (j + run) w2 && boundaryAfter s (j + run + w2.length))

/-- Single-word alternatives of the two greeting and farewell patterns. -/
def greetingWordAlts : List (List Char) :=
  ["hi", "hello", "hey", "howdy", "greetings", "thanks", "bye", "goodbye",
    "cheers"].map String.toList

/-- Two-word alternatives of the greeting and farewell patterns, joined by a
whitespace run in the source regex. -/
def greetingCompoundAlts : List (List Char × List Char) :=
  [("good".toList, "morning".toList), ("good".toList, "afternoon".toList),
    ("good".toList, "evening".toList), ("thank".toList, "you".toList),
    ("see".toList, "you".toList)]

/-- re.search over both greeting patterns: does any alternative match
anywhere in `s`. -/
def greetingHit (s : List Char) : Bool :=
  (List.range (s.length + 1)).any fun i =>
    greetingWordAlts.any (fun w => wordAt s i w) ||
      greetingCompoundAlts.any (fun pr => compoundAt s i pr.1 pr.2)

/-- COMPLEX_KEYWORDS of the classifier, in source order. -/
def COMPLEX_KEYWORDS : List (List Char) :=
  ["how", "why", "explain", "compare", "comparison", "difference",
    "differences", "between", "steps", "troubleshoot", "troubleshooting",
    "configure", "configuration", "integrate", "integration",
    "setup", "set up", "multi", "multiple", "detailed", "describe",
    "walk me through", "guide", "process", "workflow", "migrate",
    "migration", "architecture", "implement", "implementation"].map String.toList

/-- COMPLAINT_KEYWORDS of the classifier, in source order. -/
def COMPLAINT_KEYWORDS : List (List Char) :=
  ["not working".toList, "broken".toList, "issue".toList, "problem".toList,
    "bug".toList, "error".toList, "frustrated".toList, "urgent".toList,
    "critical".toList, "failing".toList, "failed".toList,
    aposJoin "can" "t", "cannot".toList, "unable".toList,
    aposJoin "doesn" "t work", aposJoin "won" "t",
    "help me".toList, "stuck".toList, "confused".toList]

/-- Subordinate conjunctions scanned by the classifier. -/
def subordConjs : List (List Char) :=
  ["and", "but", "because", "while", "when", "although", "however"].map String.toList

/-- Decimal digits of a number, as Python str formatting produces. -/
def natChars (n : Nat) : List Char := (toString n).toList

/-- Python repr of a string inside a formatted list: the text between
apostrophes. -/
def quoteRepr (w : List Char) : List Char := apos :: w ++ [apos]

/-- Python str of a list of strings, as an f-string renders it. -/
def pyListRepr (ws : List (List Char)) : List Char :=
  '[' :: (List.intercalate ", ".toList (ws.map quoteRepr)) ++ [']']

/-- The routing decision dictionary returned by classify_query. -/
structure RoutingDecision where
  classification : List Char
  modelUsed : List Char
  signals : List (List Char)
deriving DecidableEq

/-- MODEL_SIMPLE from the configuration. -/
def MODEL_SIMPLE : List Char := "llama-3.1-8b-instant".toList

/-- MODEL_COMPLEX from the configuration. -/
def MODEL_COMPLEX : List Char := "llama-3.3-70b-versatile".toList

/-- classify_query: deterministic rule-based classification of a query as
simple or complex, with a greeting short circuit and five scored rules. -/
def classifyQuery (query : List Char) : RoutingDecision :=
  let ql := pyStrip (pyLower query)
  let wordCount := (pySplitWs ql).length
  let isGreeting := greetingHit ql
  let signals0 : List (List Char) :=
    if isGreeting then ["greeting_detected".toList] else []
  if isGreeting ∧ wordCount ≤ 5 then
    ⟨"simple".toList, MODEL_SIMPLE, signals0⟩
  else
    let s2 : List (List Char) :=
      if 15 ≤ wordCount then
        ["long_query (".toList ++ natChars wordCount ++ " words)".toList]
      else if 10 ≤ wordCount then
        ["moderate_length (".toList ++ natChars wordCount ++ " words)".toList]
      else []
    let score2 : Nat := if 15 ≤ wordCount then 2 else if 10 ≤ wordCount then 1 else 0
    let ckf := COMPLEX_KEYWORDS.filter fun k => containsSub ql k
    let s3 : List (List Char) :=
      if 2 ≤ ckf.length then ["multiple_complex_keywords: ".toList ++ pyListRepr ckf]
      else if ckf.length = 1 then ["complex_keyword: ".toList ++ ckf.headD []]
      else []
    let score3 : Nat := if 2 ≤ ckf.length then 2 else if ckf.length = 1 then 1 else 0
    let qm := query.count '?'
    let s4 : List (List Char) :=
      if 2 ≤ qm then
        ["multi_question (".toList ++ natChars qm ++ " question marks)".toList]
      else []
    let score4 : Nat := if 2 ≤ qm then 2 else 0
    let cpf := COMPLAINT_KEYWORDS.filter fun k => containsSub ql k
    let s5 : List (List Char) :=
      if cpf = [] then [] else ["complaint_indicators: ".toList ++ pyListRepr cpf]
    let score5 : Nat := if cpf = [] then 0 else 1
    let conjf := subordConjs.filter fun k =>
      containsSub (' ' :: ql ++ [' ']) (' ' :: k ++ [' '])
    let s6 : List (List Char) :=
      if 2 ≤ conjf.length then ["subordinate_clauses: ".toList ++ pyListRepr conjf]
      else []
    let score6 : Nat := if 2 ≤ conjf.length then 1 else 0
    let total := score2 + score3 + score4 + score5 + score6
    let signals1 := signals0 ++ s2 ++ s3 ++ s4 ++ s5 ++ s6
    let signals2 := if signals1 = [] then ["no_special_signals".toList] else signals1
    if 2 ≤ total then ⟨"complex".toList, MODEL_COMPLEX, signals2⟩
    else ⟨"simple".toList, MODEL_SIMPLE, signals2⟩

/-- Claim C3: a query matching the greeting or farewell patterns whose word
count is at most five is classified simple with the fast model and the
single signal greeting_detected, before any scoring. -/
theorem claim_C3 (query : List Char)
    (h1 : greetingHit (pyStrip (pyLower query)) = true)
    (h2 : (pySplitWs (pyStrip (pyLower query))).length ≤ 5) :
    classifyQuery query
      = ⟨"simple".toList, MODEL_SIMPLE, ["greeting_detected".toList]⟩ := by
  unfold classifyQuery
  rw [if_pos ⟨h1, h2⟩, if_pos h1]

/-- Witness for claim C3 on the concrete query of the specification. -/
theorem claim_C3_witness :
    classifyQuery "Hi!".toList
      = ⟨"simple".toList, MODEL_SIMPLE, ["greeting_detected".toList]⟩ :=
  claim_C3 "Hi!".toList (by decide) (by decide)

/-- REFUSAL_PHRASES of the evaluator, in source order. -/
def REFUSAL_PHRASES : List (List Char) :=
  [aposJoin "i don" "t have", "i do not have".toList, "not mentioned".toList,
    "cannot find".toList, aposJoin "can" "t find", "no information".toList,
    aposJoin "i" "m not sure", "i am not sure".toList, aposJoin "don" "t know",
    "do not know".toList, "not available".toList, "no relevant".toList,
    "unable to find".toList, "unable to answer".toList,
    "not enough information".toList, "not provided in".toList,
    aposJoin "doesn" "t contain", "does not contain".toList,
    "not in the documentation".toList, aposJoin "context doesn" "t",
    "context does not".toList, "no documentation".toList,
    "i cannot".toList, aposJoin "i can" "t"]

/-- CONFLICT_PHRASES of the evaluator, in source order. -/
def CONFLICT_PHRASES : List (List Char) :=
  ["conflicting", "contradictory", "inconsistent", "discrepancy",
    "differs from", "different from what", "varies depending",
    "unclear from the documentation", "multiple sources suggest different",
    "appears to conflict", "however, another", "on the other hand",
    "but the documentation also states", "note that there may be"].map String.toList

/-- Contrastive transition words scanned by the conflict heuristic. -/
def transitionWords : List (List Char) :=
  ["however", "but", "although", "whereas", "nevertheless"].map String.toList

/-- A retrieved chunk dictionary as the evaluator reads it: only the document
name and the relevance score are consulted, with defaults for missing keys. -/
structure RChunk where
  document : List Char
  relevance_score : ℚ
deriving DecidableEq

/-- Binary maximum on the rationals, written so the kernel can evaluate
it. -/
def pyMax2 (a b : ℚ) : ℚ := if a ≤ b then b else a

/-- Python max over scores with default 0: the maximum of a non-empty list,
and the default on an empty one. -/
def pyMaxD (l : List ℚ) (d : ℚ) : ℚ :=
  match l with
  | [] => d
  | x :: xs => xs.foldl pyMax2 x

/-- _check_refusal: does the lowercased answer contain any refusal phrase. -/
def checkRefusal (answerLower : List Char) : Bool :=
  REFUSAL_PHRASES.any fun p => containsSub answerLower p

/-- _check_conflicting_info: a conflict phrase in the lowercased answer, or
at least three retrieved chunks spanning at least three distinct documents
together with at least two distinct transition words in the answer. -/
def checkConflictingInfo (answerLower : List Char) (retrievedChunks : List RChunk) :
    Bool :=
  CONFLICT_PHRASES.any (fun p => containsSub answerLower p) ||
    (!retrievedChunks.isEmpty && decide (3 ≤ retrievedChunks.length) &&
      decide (3 ≤ ((retrievedChunks.map fun c => c.document).dedup.length)) &&
      decide (2 ≤ (transitionWords.countP fun w => containsSub answerLower w)))

/-- The effectively-no-context test of evaluate_response: no chunks were
retrieved, or some were but their best relevance score is below 0.4. -/
def effectivelyNoContext (chunksRetrieved : Nat) (retrievedChunks : List RChunk) :
    Bool :=
  if chunksRetrieved = 0 then true
  else if !retrievedChunks.isEmpty then
    decide (pyMaxD (retrievedChunks.map fun c => c.relevance_score) 0 < mkRat 2 5)
  else false

/-- evaluate_response: the ordered list of reliability flags for an answer. -/
def evaluateResponse (answer : List Char) (chunksRetrieved : Nat)
    (retrievedChunks : List RChunk) : List (List Char) :=
  let answerLower := pyLower answer
  let enc := effectivelyNoContext chunksRetrieved retrievedChunks
  (if enc then ["no_context".toList] else []) ++
    (if checkRefusal answerLower && !enc then ["refusal".toList] else []) ++
      (if checkConflictingInfo answerLower retrievedChunks then
        ["conflicting_info".toList] else [])

/-- The answer of the refusal scenario in the specification. -/
def refusalScenarioAnswer : List Char :=
  "I don".toList ++ apos ::
    "t have enough information in the provided documentation.".toList

/-- Three retrieved chunks with relevance score at least 0.4, for the refusal
scenario. -/
def refusalScenarioChunks : List RChunk :=
  [⟨"a".toList, mkRat 1 2⟩, ⟨"b".toList, mkRat 1 2⟩, ⟨"c".toList, mkRat 1 2⟩]

/-- Claim C4: the refusal flag is present exactly when the lowercased answer
contains a refusal phrase and the no_context flag is absent; in particular
the refusal scenario of the specification flags refusal and not
no_context. -/
theorem claim_C4 :
    (∀ (answer : List Char) (n : Nat) (chunks : List RChunk),
      "refusal".toList ∈ evaluateResponse answer n chunks ↔
        ((∃ p ∈ REFUSAL_PHRASES, containsSub (pyLower answer) p = true) ∧
          "no_context".toList ∉ evaluateResponse answer n chunks)) ∧
      ("refusal".toList ∈ evaluateResponse refusalScenarioAnswer 3 refusalScenarioChunks ∧
        "no_context".toList ∉ evaluateResponse refusalScenarioAnswer 3 refusalScenarioChunks) := by
  constructor
  · intro answer n chunks
    have hiff : checkRefusal (pyLower answer) = true ↔
        (∃ p ∈ REFUSAL_PHRASES, containsSub (pyLower answer) p = true) := by
      unfold checkRefusal
      exact List.any_eq_true
    rw [← hiff]
    simp only [evaluateResponse]
    cases henc : effectivelyNoContext n chunks <;>
      cases href : checkRefusal (pyLower answer) <;>
        cases hconf : checkConflictingInfo (pyLower answer) chunks <;>
          simp +decide
  · decide

/-- Claim C5: the conflicting_info flag is present exactly when the
lowercased answer contains a conflict phrase, or there are at least three
retrieved chunks from at least three distinct documents and the answer
contains at least two distinct contrastive transition words. -/
theorem claim_C5 (answer : List Char) (n : Nat) (chunks : List RChunk) :
    "conflicting_info".toList ∈ evaluateResponse answer n chunks ↔
      ((∃ p ∈ CONFLICT_PHRASES, containsSub (pyLower answer) p = true) ∨
        (3 ≤ chunks.length ∧
          3 ≤ ((chunks.map fun c => c.document).dedup).length ∧
          2 ≤ (transitionWords.countP fun w => containsSub (pyLower answer) w))) := by
  have hiff : checkConflictingInfo (pyLower answer) chunks = true ↔
      ((∃ p ∈ CONFLICT_PHRASES, containsSub (pyLower answer) p = true) ∨
        (3 ≤ chunks.length ∧
          3 ≤ ((chunks.map fun c => c.document).dedup).length ∧
          2 ≤ (transitionWords.countP fun w => containsSub (pyLower answer) w))) := by
    unfold checkConflictingInfo
    rw [Bool.or_eq_true, List.any_eq_true]
    constructor
    · rintro (h | h)
      · exact Or.inl h
      · simp only [Bool.and_eq_true, decide_eq_true_eq] at h
        exact Or.inr ⟨h.1.1.2, h.1.2, h.2⟩
    · rintro (h | ⟨h1, h2, h3⟩)
      · exact Or.inl h
      · refine Or.inr ?_
        simp only [Bool.and_eq_true, decide_eq_true_eq]
        refine ⟨⟨⟨?_, h1⟩, h2⟩, h3⟩
        cases chunks with
        | nil => simp at h1
        | cons a l => rfl
  rw [← hiff]
  simp only [evaluateResponse]
  cases henc : effectivelyNoContext n chunks <;>
    cases href : checkRefusal (pyLower answer) <;>
      cases hconf : checkConflictingInfo (pyLower answer) chunks <;>
        simp +decide

/-- Claim C9: the flag list is always a duplicate-free subsequence of the
three flags in their fixed order, and no_context and refusal never appear
together. -/
theorem claim_C9 (answer : List Char) (n : Nat) (chunks : List RChunk) :
    (evaluateResponse answer n chunks).Sublist
        ["no_context".toList, "refusal".toList, "conflicting_info".toList] ∧
      (evaluateResponse answer n chunks).Nodup ∧
      ¬("no_context".toList ∈ evaluateResponse answer n chunks ∧
        "refusal".toList ∈ evaluateResponse answer n chunks) := by
  simp only [evaluateResponse]
  cases henc : effectivelyNoContext n chunks <;>
    cases href : checkRefusal (pyLower answer) <;>
      cases hconf : checkConflictingInfo (pyLower answer) chunks <;>
        refine ⟨by decide, by decide, by decide⟩

/-- TOP_K from the configuration. -/
def TOP_K : Nat := 5

/-- SIMILARITY_THRESHOLD from the configuration. -/
def SIMILARITY_THRESHOLD : ℚ := 3 / 10

/-- A document chunk row of the database table the retriever queries. The
cosine distance of its stored embedding vector against the embedded query is
supplied by an oracle function, since the embedding model and pgvector are
external collaborators. -/
structure DBChunk where
  document_name : List Char
  page : Nat
  text_content : List Char
deriving DecidableEq

/-- A retrieved chunk dictionary produced by the retriever. -/
structure RetrievedDict where
  document : List Char
  page : Nat
  text : List Char
  relevance_score : ℚ
deriving DecidableEq

/-- Round half to even to an integer, as Python round does on exact
values. -/
def rhe (q : ℚ) : ℤ :=
  let f := ⌊q⌋
  let r := q - (f : ℚ)
  if r < 1 / 2 then f
  else if 1 / 2 < r then f + 1
  else if f % 2 = 0 then f else f + 1

/-- Python round(x, 4): round half to even at the fourth decimal. -/
def round4 (q : ℚ) : ℚ := (rhe (q * 10000) : ℚ) / 10000

/-- Stable insertion of a row into a list ordered by ascending distance. -/
def insertByDist (x : DBChunk × ℚ) : List (DBChunk × ℚ) → List (DBChunk × ℚ)
  | [] => [x]
  | y :: ys => if x.2 < y.2 then x :: y :: ys else y :: insertByDist x ys

/-- The order-by-distance of the retriever's SQL query, modelled as a stable
sort on the oracle distances (the database's order among equal distances is
unspecified; this model fixes insertion order). -/
def sortByDist : List (DBChunk × ℚ) → List (DBChunk × ℚ)
  | [] => []
  | x :: xs => insertByDist x (sortByDist xs)

/-- Python `top_k or TOP_K`: a missing or zero argument falls back to the
configured default. -/
def effTopK : Option Nat → Nat
  | none => TOP_K
  | some k => if k = 0 then TOP_K else k

/-- Python `threshold or SIMILARITY_THRESHOLD`: a missing or zero argument
falls back to the configured default. -/
def effThreshold : Option ℚ → ℚ
  | none => SIMILARITY_THRESHOLD
  | some t => if t = 0 then SIMILARITY_THRESHOLD else t

/-- Retriever.retrieve_async: order the chunk rows by ascending cosine
distance, take the top k, recover similarity as one minus distance, keep
rows at or above the threshold and attach the similarity rounded to four
decimals. -/
def retrieveAsync (db : List DBChunk) (distFn : DBChunk → ℚ)
    (topK : Option Nat) (threshold : Option ℚ) : List RetrievedDict :=
  let tk := effTopK topK
  let th := effThreshold threshold
  let rows := (sortByDist (db.map fun c => (c, distFn c))).take tk
  rows.foldl
    (fun acc row =>
      let similarity := 1 - row.2
      if th ≤ similarity then
        acc ++ [⟨row.1.document_name, row.1.page, row.1.text_content,
          round4 similarity⟩]
      else acc)
    []

theorem foldl_filter_map (th : ℚ) :
    ∀ (l : List (DBChunk × ℚ)) (init : List RetrievedDict),
    l.foldl
        (fun acc row =>
          let similarity := 1 - row.2
          if th ≤ similarity then
            acc ++ [⟨row.1.document_name, row.1.page, row.1.text_content,
              round4 similarity⟩]
          else acc)
        init
      = init ++ (l.filter fun row => decide (th ≤ 1 - row.2)).map
          (fun row => ⟨row.1.document_name, row.1.page, row.1.text_content,
            round4 (1 - row.2)⟩) := by
  intro l
  induction l with
  | nil => intro init; simp
  | cons x xs ih =>
    intro init
    simp only [List.foldl_cons, List.filter_cons]
    by_cases hx : th ≤ 1 - x.2
    · rw [if_pos hx, ih, if_pos (by simpa using hx)]
      simp
    · rw [if_neg hx, ih, if_neg (by simpa using hx)]

theorem rhe_ge_floor (q : ℚ) : ⌊q⌋ ≤ rhe q := by
  unfold rhe
  simp only
  split
  · exact le_refl _
  · split
    · omega
    · split
      · exact le_refl _
      · omega

/-- Claim C1 (amended): the retriever keeps exactly the candidate rows whose
computed similarity is at least the threshold, dropping the rest entirely;
and whenever the effective threshold is an integer multiple of one
ten-thousandth, as the default 0.3 is, every returned relevance score, the
similarity rounded to four decimals, is still at least the threshold. For
other thresholds rounding can push the returned score below the threshold,
as the counterexample shows. -/
theorem claim_C1_amended (db : List DBChunk) (distFn : DBChunk → ℚ)
    (topK : Option Nat) (threshold : Option ℚ) :
    retrieveAsync db distFn topK threshold
        = (((sortByDist (db.map fun c => (c, distFn c))).take (effTopK topK)).filter
              fun row => decide (effThreshold threshold ≤ 1 - row.2)).map
            (fun row => ⟨row.1.document_name, row.1.page, row.1.text_content,
              round4 (1 - row.2)⟩) ∧
      ((∃ n : ℤ, effThreshold threshold = (n : ℚ) / 10000) →
        ∀ d ∈ retrieveAsync db distFn topK threshold,
          effThreshold threshold ≤ d.relevance_score) := by
  constructor
  · unfold retrieveAsync
    exact foldl_filter_map (effThreshold threshold) _ []
  · rintro ⟨n, hn⟩ d hd
    unfold retrieveAsync at hd
    rw [foldl_filter_map (effThreshold threshold) _ []] at hd
    simp only [List.nil_append, List.mem_map, List.mem_filter,
      decide_eq_true_eq] at hd
    obtain ⟨row, ⟨_, hth⟩, hrow⟩ := hd
    subst hrow
    show effThreshold threshold ≤ round4 (1 - row.2)
    unfold round4
    rw [hn] at hth ⊢
    have h1 : (n : ℚ) ≤ (1 - row.2) * 10000 := by
      have h2 := mul_le_mul_of_nonneg_right hth (show (0 : ℚ) ≤ 10000 by norm_num)
      rwa [div_mul_cancel₀ _ (show (10000 : ℚ) ≠ 0 by norm_num)] at h2
    have h4 : n ≤ rhe ((1 - row.2) * 10000) :=
      le_trans (Int.le_floor.mpr h1) (rhe_ge_floor _)
    have h5 : (n : ℚ) ≤ ((rhe ((1 - row.2) * 10000) : ℤ) : ℚ) := by exact_mod_cast h4
    gcongr

theorem headD_mem {α : Type} (l : List α) (d : α) (h : l ≠ []) : l.headD d ∈ l := by
  cases l with
  | nil => cases h rfl
  | cons a t => simp

/-- Witness for claim C1 (amended) at a one-row database with distance one
half and the default threshold of three tenths. -/
theorem claim_C1_witness :
    effThreshold none
      ≤ ((retrieveAsync [⟨"d".toList, 1, "t".toList⟩] (fun _ => 1/2) none
            none).headD ⟨[], 0, [], 0⟩).relevance_score := by
  have hres : retrieveAsync [⟨"d".toList, 1, "t".toList⟩]
        (fun _ => (1 : ℚ)/2) none none
      = if effThreshold none ≤ 1 - 1/2 then
          [] ++ [⟨"d".toList, 1, "t".toList, round4 (1 - 1/2)⟩]
        else [] := rfl
  have hne : retrieveAsync [⟨"d".toList, 1, "t".toList⟩]
      (fun _ => (1 : ℚ)/2) none none ≠ [] := by
    rw [hres, if_pos (by norm_num [effThreshold, SIMILARITY_THRESHOLD])]
    simp
  exact (claim_C1_amended [⟨"d".toList, 1, "t".toList⟩] (fun _ => (1 : ℚ)/2)
      none none).2
    ⟨3000, by norm_num [effThreshold, SIMILARITY_THRESHOLD]⟩ _ (headD_mem _ _ hne)

/-- Counterexample to claim C1 as stated: with threshold 0.30004, a candidate
at similarity 0.300041 is kept, but its relevance score is rounded to 0.3,
which is below the threshold. -/
theorem claim_C1_counterexample :
    retrieveAsync [⟨"d".toList, 1, "t".toList⟩] (fun _ => 699959/1000000) none
        (some (30004/100000))
      = [⟨"d".toList, 1, "t".toList, 3/10⟩] ∧ ((3 : ℚ)/10 < 30004/100000) := by
  have hth : effThreshold (some ((30004 : ℚ)/100000)) = 30004/100000 := by
    simp only [effThreshold]
    rw [if_neg (by norm_num)]
  have hres : retrieveAsync [⟨"d".toList, 1, "t".toList⟩]
        (fun _ => (699959 : ℚ)/1000000) none (some (30004/100000))
      = if effThreshold (some ((30004 : ℚ)/100000)) ≤ 1 - 699959/1000000 then
          [] ++ [⟨"d".toList, 1, "t".toList, round4 (1 - 699959/1000000)⟩]
        else [] := rfl
  have hround : round4 ((1 : ℚ) - 699959/1000000) = 3/10 := by
    unfold round4
    have hx : ((1 : ℚ) - 699959/1000000) * 10000 = 300041/100 := by norm_num
    rw [hx]
    have hr : rhe ((300041 : ℚ)/100) = 3000 := by
      unfold rhe
      simp only
      have hfl : ⌊(300041 : ℚ)/100⌋ = 3000 := by
        rw [Int.floor_eq_iff]
        constructor <;> norm_num
      rw [hfl]
      rw [if_pos (by push_cast; norm_num)]
    rw [hr]
    norm_num
  refine ⟨?_, by norm_num⟩
  rw [hres, hth, if_pos (by norm_num), hround]
  simp

/-- Claim C10: passing zero for top_k or threshold is indistinguishable from
omitting the argument, because Python `or` replaces falsy values with the
configured defaults; the effective values are then the defaults five and
three tenths, so a caller cannot request zero results or a zero
threshold. -/
theorem claim_C10 (db : List DBChunk) (distFn : DBChunk → ℚ) (k : Option Nat)
    (t : Option ℚ) :
    retrieveAsync db distFn (some 0) t = retrieveAsync db distFn none t ∧
      retrieveAsync db distFn k (some 0) = retrieveAsync db distFn k none ∧
        effTopK (some 0) = TOP_K ∧ effThreshold (some 0) = SIMILARITY_THRESHOLD := by
  have h2 : effThreshold (some 0) = effThreshold none := by
    simp [effThreshold]
  refine ⟨?_, ?_, rfl, by simp [effThreshold]⟩
  · rfl
  · unfold retrieveAsync
    rw [h2]

/-- Metadata of one chunk as stored beside the vector index. -/
structure ChunkMeta where
  text : List Char
  document : List Char
  page : Nat
  chunk_id : Nat
deriving DecidableEq

/-- The state of an EmbeddingIndex object: an optional FAISS index, modelled
as the list of stored embedding vectors in insertion order, plus the chunk
metadata list. -/
structure EmbeddingIndex where
  index : Option (List (List ℚ))
  chunks : List ChunkMeta

/-- A fresh EmbeddingIndex: no index present until build_index or load. -/
def EmbeddingIndex.init : EmbeddingIndex := ⟨none, []⟩

/-- Inner product of two vectors. -/
def dot (a b : List ℚ) : ℚ := ((a.zip b).map fun p => p.1 * p.2).sum

/-- build_index: embed every chunk text with the external model and store
the vectors as the index, in insertion order. -/
def buildIndex (encode : List Char → List ℚ) (_st : EmbeddingIndex)
    (chunks : List ChunkMeta) : EmbeddingIndex :=
  ⟨some (chunks.map fun c => encode c.text), chunks⟩

/-- load: restore a persisted index and its chunk metadata. -/
def loadIndex (_st : EmbeddingIndex) (vecs : List (List ℚ))
    (meta : List ChunkMeta) : EmbeddingIndex :=
  ⟨some vecs, meta⟩

/-- Stable insertion of a scored index into a list ordered by descending
score; equal scores keep ascending index order, as FAISS argsort does. -/
def insertByScore (x : ℚ × Nat) : List (ℚ × Nat) → List (ℚ × Nat)
  | [] => [x]
  | y :: ys => if y.1 < x.1 then x :: y :: ys else y :: insertByScore x ys

/-- Sort scored indices by descending score, stably. -/
def sortScoresDesc : List (ℚ × Nat) → List (ℚ × Nat)
  | [] => []
  | x :: xs => insertByScore x (sortScoresDesc xs)

/-- EmbeddingIndex.search: fail when no index is present, else score every
stored vector by inner product against the embedded query, take the top k
by descending score, and pair surviving in-range indices with their chunk
metadata. The source also discards the minus-one indices FAISS pads with
when k exceeds the vector count; the model never produces them. -/
def searchIndex (encode : List Char → List ℚ) (st : EmbeddingIndex)
    (query : List Char) (topK : Nat) :
    Except (List Char) (List (ChunkMeta × ℚ)) :=
  match st.index with
  | none =>
    Except.error "Index not built or loaded. Call build_index() or load() first.".toList
  | some vecs =>
    let qv := encode query
    let scored := (vecs.map fun v => dot qv v).enum.map fun p => (p.2, p.1)
    let top := (sortScoresDesc scored).take topK
    Except.ok (top.filterMap fun p =>
      if p.2 < st.chunks.length then some (st.chunks.getD p.2 ⟨[], [], 0, 0⟩, p.1)
      else none)

/-- Claim C8: for every query and k, search raises the not-initialized error
exactly while no index is present, which is the state before build_index or
load; after either completes it returns a result instead. -/
theorem claim_C8 (encode : List Char → List ℚ) (query : List Char) (k : Nat) :
    (searchIndex encode EmbeddingIndex.init query k
        = Except.error
            "Index not built or loaded. Call build_index() or load() first.".toList) ∧
      (∀ (st : EmbeddingIndex) (chunks : List ChunkMeta),
        ∃ r, searchIndex encode (buildIndex encode st chunks) query k = Except.ok r) ∧
      (∀ (st : EmbeddingIndex) (vecs : List (List ℚ)) (meta : List ChunkMeta),
        ∃ r, searchIndex encode (loadIndex st vecs meta) query k = Except.ok r) :=
  ⟨rfl, fun _ _ => ⟨_, rfl⟩, fun _ _ _ => ⟨_, rfl⟩⟩

end Rag
